import Mathlib

/-!
Shallow embedding of `src/generate_manifest.py` (portfolio-assets manifest
generator).  The filesystem is modelled as a tree of named entries; Python's
`pathlib` operations (`suffix`, `stem`, `exists`, `iterdir`, `is_file`,
`is_dir`) are translated faithfully, working on the character list of a
filename.  Fallible filesystem traversal (Python exceptions such as
`NotADirectoryError`) is modelled with `Except String`.  Strings are ASCII;
Python's `str.lower` is `Char.toLower` mapped over the characters, Python
string comparison is lexicographic by code point (`charsLE` below), and
Python's stable `sorted` with a key producing a total order is realised by
`List.insertionSort` over that order.
-/

namespace PortfolioManifest

/-- A filesystem entry: a regular file or a directory with children listed in
filesystem enumeration order. -/
inductive Entry where
  | file (name : String)
  | dir (name : String) (children : List Entry)
deriving Repr

/-- The name of an entry. -/
def Entry.name : Entry → String
  | .file n => n
  | .dir n _ => n

/-- Resolving `parent / name`: the first child with the given name, if any.
`none` models a path that does not exist (`Path.exists()` is false). -/
def findEntry (name : String) (es : List Entry) : Option Entry :=
  es.find? (fun e => e.name == name)

/-- `CATEGORIES` from the source: the fixed ordered category list. -/
def CATEGORIES : List String := ["projects", "education", "experience", "certifications"]

/-- `ASSET_TYPES` from the source: asset type name to extension list, in
insertion order. -/
def ASSET_TYPES : List (String × List String) :=
  [("screenshots", [".png", ".jpg", ".jpeg", ".gif", ".webp"]),
   ("videos", [".mp4", ".mkv", ".avi", ".mov", ".webm"]),
   ("pdfs", [".pdf"]),
   ("installers", [".apk", ".exe", ".dmg", ".msi", ".deb", ".rpm"])]

/-- `LOGO_EXTENSIONS` from the source. -/
def LOGO_EXTENSIONS : List String := [".png", ".jpg", ".jpeg", ".svg", ".webp"]

/-- Split a character list at its last `'.'`: the parts before and after
that dot, or `none` when no dot occurs.  Helper for Python `pathlib`'s
`suffix`/`stem`. -/
def splitLastDot : List Char → Option (List Char × List Char)
  | [] => none
  | c :: rest =>
    match splitLastDot rest with
    | some (b, a) => some (c :: b, a)
    | none => if c = '.' then some ([], rest) else none

/-- Python `pathlib.PurePath.suffix` as a character list: the final
component beginning at the last dot, unless that dot is the first or the
last character of the name. -/
def pySuffix (name : String) : List Char :=
  match splitLastDot name.toList with
  | some (b, a) => if b.isEmpty || a.isEmpty then [] else '.' :: a
  | none => []

/-- Python `pathlib.PurePath.stem` as a character list: the name with its
suffix removed. -/
def pyStem (name : String) : List Char :=
  match splitLastDot name.toList with
  | some (b, a) => if b.isEmpty || a.isEmpty then name.toList else b
  | none => name.toList

/-- Python `str.lower` on a character list (ASCII). -/
def lowerChars (l : List Char) : List Char := l.map Char.toLower

/-- Python `x.split('.')[0]` as a character list: the part of the string
before the first dot (the whole string when it has no dot). -/
def beforeFirstDot (x : String) : List Char :=
  x.toList.takeWhile (fun c => !(c == '.'))

/-- Numeric value of a digit list read left to right, as Python
`int("".join(...))` on a nonempty ASCII digit string (`0` on `[]`). -/
def digitsToNat (l : List Char) : Nat :=
  l.foldl (fun n c => 10 * n + (c.toNat - 48)) 0

/-- The numeric half of the sort key in `get_files_in_directory`:
`int(''.join(filter(str.isdigit, x.split('.')[0])))` when the part before
the first dot contains a digit, else `0`. -/
def sortKeyNum (x : String) : Nat :=
  if (beforeFirstDot x).any Char.isDigit then
    digitsToNat ((beforeFirstDot x).filter Char.isDigit)
  else 0

/-- Lexicographic code-point comparison on character lists, i.e. Python's
`<=` on strings. -/
def charsLE : List Char → List Char → Bool
  | [], _ => true
  | _ :: _, [] => false
  | a :: as, b :: bs => if a = b then charsLE as bs else decide (a.toNat < b.toNat)

/-- Python string `x <= y`. -/
def strLE (x y : String) : Bool := charsLE x.toList y.toList

/-- The total order used by `sorted(files, key=lambda x: (num, x))` in
`get_files_in_directory`: compare the numeric key, break ties by the full
filename. -/
def keyLE (x y : String) : Prop :=
  sortKeyNum x < sortKeyNum y ∨ (sortKeyNum x = sortKeyNum y ∧ strLE x y = true)

instance : DecidableRel keyLE := fun x y => by unfold keyLE; exact inferInstance

/-- `get_files_in_directory(directory, extensions)`.  The argument is the
entry found at the directory's path (`none` = path does not exist).  A path
that exists but is a regular file makes `iterdir()` raise
`NotADirectoryError`, modelled as `Except.error`. -/
def get_files_in_directory (d : Option Entry) (extensions : List String) :
    Except String (List String) :=
  match d with
  | none => .ok []
  | some (.file _) => .error "NotADirectoryError"
  | some (.dir _ children) =>
    let files := children.filterMap (fun e =>
      match e with
      | .file n =>
        if extensions.contains (String.mk (lowerChars (pySuffix n))) then some n else none
      | .dir _ _ => none)
    .ok (files.insertionSort keyLE)

/-- Whether a directory entry is a logo candidate:
`file.is_file() and file.stem.lower() == 'logo' and file.suffix.lower() in LOGO_EXTENSIONS`. -/
def isLogoFile (e : Entry) : Bool :=
  match e with
  | .file n =>
    String.mk (lowerChars (pyStem n)) == "logo" &&
      LOGO_EXTENSIONS.contains (String.mk (lowerChars (pySuffix n)))
  | .dir _ _ => false

/-- The logo-detection loop in `scan_slug_directory`: first matching entry in
enumeration order, with `break`. -/
def findLogo : List Entry → Option String
  | [] => none
  | e :: rest => if isLogoFile e then some e.name else findLogo rest

/-- The value stored under a key of a slug's assets: a single filename (the
logo) or a list of filenames (an asset type). -/
inductive AssetVal where
  | single (s : String)
  | many (l : List String)
deriving Repr, DecidableEq

/-- A slug's assets, as an insertion-ordered association list (Python dict). -/
abbrev SlugAssets := List (String × AssetVal)

/-- A category's data: slug name to assets, in insertion order. -/
abbrev CategoryData := List (String × SlugAssets)

/-- The manifest: category name to category data, in insertion order. -/
abbrev Manifest := List (String × CategoryData)

/-- The asset-type loop of `scan_slug_directory` over a list of
(type, extensions) pairs: list each type's directory, keep nonempty results
in order. -/
def scanTypes (children : List Entry) : List (String × List String) → Except String SlugAssets
  | [] => .ok []
  | (t, exts) :: rest =>
    match get_files_in_directory (findEntry t children) exts with
    | .error e => .error e
    | .ok files =>
      match scanTypes children rest with
      | .error e => .error e
      | .ok tail => if files.isEmpty then .ok tail else .ok ((t, .many files) :: tail)

/-- The optional `logo` binding produced by the logo-detection loop. -/
def logoPart (children : List Entry) : SlugAssets :=
  match findLogo children with
  | some n => [("logo", .single n)]
  | none => []

/-- `scan_slug_directory(slug_path)`, given the slug directory's children:
the logo key first (when found), then the nonempty asset types in
`ASSET_TYPES` order. -/
def scan_slug_directory (children : List Entry) : Except String SlugAssets :=
  match scanTypes children ASSET_TYPES with
  | .error e => .error e
  | .ok typed => .ok (logoPart children ++ typed)

/-- Python `name.startswith('.')`. -/
def startsWithDot (n : String) : Bool :=
  match n.toList with
  | c :: _ => c == '.'
  | [] => false

/-- The slug loop of `generate_manifest` over a category directory's
children: scan every non-hidden subdirectory, keep slugs with nonempty
assets, in enumeration order. -/
def categoryData : List Entry → Except String CategoryData
  | [] => .ok []
  | .file _ :: rest => categoryData rest
  | .dir n cs :: rest =>
    if startsWithDot n then categoryData rest
    else
      match scan_slug_directory cs with
      | .error e => .error e
      | .ok sa =>
        match categoryData rest with
        | .error e => .error e
        | .ok tail => if sa.isEmpty then .ok tail else .ok ((n, sa) :: tail)

/-- The category loop of `generate_manifest` over a list of category names.
A category path that does not exist contributes an empty mapping; one that
exists as a regular file makes `iterdir()` raise. -/
def genCats (root : List Entry) : List String → Except String Manifest
  | [] => .ok []
  | cat :: rest =>
    match findEntry cat root with
    | none =>
      match genCats root rest with
      | .error e => .error e
      | .ok tail => .ok ((cat, []) :: tail)
    | some (.file _) => .error "NotADirectoryError"
    | some (.dir _ children) =>
      match categoryData children with
      | .error e => .error e
      | .ok cd =>
        match genCats root rest with
        | .error e => .error e
        | .ok tail => .ok ((cat, cd) :: tail)

/-- `generate_manifest()`, given the repository root's entries. -/
def generate_manifest (root : List Entry) : Except String Manifest :=
  genCats root CATEGORIES

/-- The count contributed by one slug-asset value in `main`'s summary:
`len(files) if isinstance(files, list) else 1`. -/
def assetWeight : AssetVal → Nat
  | .single _ => 1
  | .many l => l.length

/-- `main`'s total asset count: the flattened generator-expression sum over
every category, slug, and present key. -/
def total_assets (m : Manifest) : Nat :=
  ((((m.map Prod.snd).flatMap (fun cd => cd.map Prod.snd)).flatMap
      (fun sa => sa.map Prod.snd)).map assetWeight).sum

/-- `main`'s project count: `sum(len(cat) for cat in manifest.values())`. -/
def project_count (m : Manifest) : Nat :=
  (m.map (fun c => c.2.length)).sum

/-- Modelled from the spec: Summarize's total asset count as the spec words
it, a nested sum over every category, every slug, and every present key of
the length of a sequence value or 1 for a single filename. -/
def spec_total_assets (m : Manifest) : Nat :=
  (m.map (fun c =>
    (c.2.map (fun s =>
      (s.2.map (fun kv => assetWeight kv.2)).sum)).sum)).sum

/-- The manifest named by claim C7: one `projects` slug `foo` with a logo
and two screenshots, the other three categories empty. -/
def exampleManifest : Manifest :=
  [("projects",
    [("foo", [("logo", .single "logo.png"), ("screenshots", .many ["1.png", "2.jpg"])])]),
   ("education", []), ("experience", []), ("certifications", [])]

/-- Modelled from the claim's words (C1): the numeric value of the
filename's leading (initial) digit run in the part before the extension. -/
def claimLeadingRunKey (x : String) : Nat :=
  digitsToNat ((pyStem x).takeWhile Char.isDigit)

/-- Modelled from the claim's words (C1): the ordering the claim asserts,
leading-digit-run value ascending with full filename as tie-break. -/
def claimKeyLE (x y : String) : Prop :=
  claimLeadingRunKey x < claimLeadingRunKey y ∨
    (claimLeadingRunKey x = claimLeadingRunKey y ∧ strLE x y = true)

instance : DecidableRel claimKeyLE := fun x y => by unfold claimKeyLE; exact inferInstance

/-- Modelled from the claim's words (C2): the name consists of a nonempty
decimal numeral before its first dot. -/
def numeralNamed (x : String) : Bool :=
  !(beforeFirstDot x).isEmpty && (beforeFirstDot x).all Char.isDigit

/-- Modelled from the claim's words (C2): the numeric value of the numeral
part of a `{n}.ext` name. -/
def numeralValue (x : String) : Nat := digitsToNat (beforeFirstDot x)

/-! ### Order-theoretic facts about the sort key -/

theorem charToNat_inj {a b : Char} (h : a.toNat = b.toNat) : a = b :=
  Char.eq_of_val_eq (UInt32.eq_of_toBitVec_eq (BitVec.eq_of_toNat_eq h))

theorem charsLE_total : ∀ as bs : List Char, charsLE as bs = true ∨ charsLE bs as = true := by
  intro as
  induction as with
  | nil => intro bs; left; rfl
  | cons a as ih =>
    intro bs
    cases bs with
    | nil => right; rfl
    | cons b bs =>
      by_cases hab : a = b
      · subst hab
        simpa [charsLE] using ih bs
      · rcases Nat.lt_trichotomy a.toNat b.toNat with hlt | heq | hgt
        · left; simp [charsLE, hab, hlt]
        · exact absurd (charToNat_inj heq) hab
        · right; simp [charsLE, Ne.symm hab, hgt]

theorem charsLE_trans :
    ∀ as bs cs : List Char, charsLE as bs = true → charsLE bs cs = true →
      charsLE as cs = true := by
  intro as
  induction as with
  | nil => intro bs cs _ _; rfl
  | cons a as ih =>
    intro bs cs h1 h2
    cases bs with
    | nil => simp [charsLE] at h1
    | cons b bs =>
      cases cs with
      | nil => simp [charsLE] at h2
      | cons c cs =>
        by_cases hab : a = b <;> by_cases hbc : b = c
        · subst hab; subst hbc
          simp only [charsLE, if_pos rfl] at h1 h2 ⊢
          exact ih bs cs h1 h2
        · subst hab
          simp only [charsLE, if_pos rfl] at h1
          simp only [charsLE, if_neg hbc, decide_eq_true_eq] at h2
          have hac : a ≠ c := fun h => by subst h; exact Nat.lt_irrefl _ h2
          simp [charsLE, hac, h2]
        · subst hbc
          simp only [charsLE, if_neg hab, decide_eq_true_eq] at h1
          have hac : a ≠ b := hab
          simp [charsLE, hac, h1]
        · simp only [charsLE, if_neg hab, decide_eq_true_eq] at h1
          simp only [charsLE, if_neg hbc, decide_eq_true_eq] at h2
          have hlt : a.toNat < c.toNat := Nat.lt_trans h1 h2
          have hac : a ≠ c := fun h => by subst h; exact Nat.lt_irrefl _ hlt
          simp [charsLE, hac, hlt]

instance : IsTotal String keyLE := by
  constructor
  intro x y
  rcases Nat.lt_trichotomy (sortKeyNum x) (sortKeyNum y) with h | h | h
  · exact Or.inl (Or.inl h)
  · rcases charsLE_total x.toList y.toList with hs | hs
    · exact Or.inl (Or.inr ⟨h, hs⟩)
    · exact Or.inr (Or.inr ⟨h.symm, hs⟩)
  · exact Or.inr (Or.inl h)

instance : IsTrans String keyLE := by
  constructor
  intro x y z hxy hyz
  rcases hxy with h1 | ⟨h1, s1⟩
  · rcases hyz with h2 | ⟨h2, _⟩
    · exact Or.inl (Nat.lt_trans h1 h2)
    · exact Or.inl (h2 ▸ h1)
  · rcases hyz with h2 | ⟨h2, s2⟩
    · exact Or.inl (h1 ▸ h2)
    · exact Or.inr ⟨h1.trans h2, charsLE_trans _ _ _ s1 s2⟩

/-- Whatever list `get_files_in_directory` successfully returns is sorted by
the source's key order. -/
theorem get_files_sorted {d : Option Entry} {exts : List String} {fs : List String}
    (h : get_files_in_directory d exts = .ok fs) : fs.Sorted keyLE := by
  match d with
  | none =>
    simp only [get_files_in_directory] at h
    cases h
    exact List.sorted_nil
  | some (.file n) => simp [get_files_in_directory] at h
  | some (.dir n children) =>
    simp only [get_files_in_directory, Except.ok.injEq] at h
    subst h
    exact List.sorted_insertionSort keyLE _

/-! ### Facts about the traversal functions -/

/-- The logo loop returns the name of the first matching entry. -/
theorem findLogo_eq_find? :
    ∀ es : List Entry, findLogo es = (es.find? isLogoFile).map Entry.name := by
  intro es
  induction es with
  | nil => rfl
  | cons e rest ih =>
    by_cases h : isLogoFile e = true
    · simp [findLogo, List.find?_cons_of_pos, h]
    · simp [findLogo, List.find?_cons_of_neg, h, ih]

/-- `List.lookup` misses keys that are not in the association list. -/
theorem lookup_eq_none_of_keys {β : Type} :
    ∀ (k : String) (l : List (String × β)), k ∉ l.map Prod.fst → l.lookup k = none := by
  intro k l
  induction l with
  | nil => intro _; rfl
  | cons p rest ih =>
    intro h
    obtain ⟨k', v⟩ := p
    have hk : ¬(k = k') := fun he => h (by simp [he])
    have hrest : k ∉ rest.map Prod.fst := fun hm => h (by simp [hm])
    have hbeq : (k == k') = false := beq_eq_false_iff_ne.mpr hk
    simp [List.lookup, hbeq, ih hrest]

/-- The keys produced by the asset-type loop are a subsequence of the asset
type names, in order. -/
theorem scanTypes_keys :
    ∀ (children : List Entry) (ts : List (String × List String)) (l : SlugAssets),
      scanTypes children ts = .ok l → (l.map Prod.fst).Sublist (ts.map Prod.fst) := by
  intro children ts
  induction ts with
  | nil =>
    intro l h
    simp only [scanTypes] at h
    cases h
    simp
  | cons p rest ih =>
    obtain ⟨t, exts⟩ := p
    intro l h
    simp only [scanTypes] at h
    split at h
    · simp at h
    · split at h
      · simp at h
      · rename_i tail htail
        split at h
        · cases h
          exact (ih _ htail).trans (List.sublist_cons_self _ _)
        · cases h
          simpa using List.Sublist.cons₂ t (ih _ htail)

/-- Every binding produced by the asset-type loop is a nonempty file list
obtained by listing that type's subdirectory. -/
theorem scanTypes_mem :
    ∀ (children : List Entry) (ts : List (String × List String)) (l : SlugAssets),
      scanTypes children ts = .ok l → ∀ t v, (t, v) ∈ l →
        ∃ exts files, (t, exts) ∈ ts ∧ v = AssetVal.many files ∧ files ≠ [] ∧
          get_files_in_directory (findEntry t children) exts = .ok files := by
  intro children ts
  induction ts with
  | nil =>
    intro l h t v hm
    simp only [scanTypes] at h
    cases h
    simp at hm
  | cons p rest ih =>
    obtain ⟨t', exts'⟩ := p
    intro l h t v hm
    simp only [scanTypes] at h
    split at h
    · simp at h
    · rename_i files hfiles
      split at h
      · simp at h
      · rename_i tail htail
        split at h
        · cases h
          obtain ⟨e2, f2, hmem, hv, hne, hg⟩ := ih _ htail t v hm
          exact ⟨e2, f2, List.mem_cons_of_mem _ hmem, hv, hne, hg⟩
        · rename_i hnotempty
          cases h
          rcases List.mem_cons.mp hm with heq | hmem
          · rw [Prod.mk.injEq] at heq
            obtain ⟨rfl, rfl⟩ := heq
            refine ⟨exts', files, List.mem_cons_self _ _, rfl, ?_, hfiles⟩
            intro hnil
            subst hnil
            simp at hnotempty
          · obtain ⟨e2, f2, hmem2, hv, hne, hg⟩ := ih _ htail t v hmem
            exact ⟨e2, f2, List.mem_cons_of_mem _ hmem2, hv, hne, hg⟩

/-- If some asset type's path resolves to a regular file, the asset-type
loop raises. -/
theorem scanTypes_err :
    ∀ (children : List Entry) (ts : List (String × List String)) (t n : String),
      t ∈ ts.map Prod.fst → findEntry t children = some (.file n) →
        ∃ e, scanTypes children ts = .error e := by
  intro children ts t n hmem hfind
  induction ts with
  | nil => simp at hmem
  | cons p rest ih =>
    obtain ⟨t', exts'⟩ := p
    by_cases ht : t' = t
    · subst ht
      refine ⟨"NotADirectoryError", ?_⟩
      simp only [scanTypes, hfind, get_files_in_directory]
    · have hmem' : t ∈ rest.map Prod.fst := by
        rw [List.map_cons] at hmem
        rcases List.mem_cons.mp hmem with h | h
        · exact absurd h.symm ht
        · exact h
      obtain ⟨e, he⟩ := ih hmem'
      cases hg : get_files_in_directory (findEntry t' children) exts' with
      | error e2 => exact ⟨e2, by simp only [scanTypes, hg]⟩
      | ok files => exact ⟨e, by simp only [scanTypes, hg, he]⟩

/-- Looking up `"logo"` in a slug's assets finds exactly the logo binding. -/
theorem lookup_logoPart_append (cs : List Entry) (typed : SlugAssets)
    (hnone : typed.lookup "logo" = none) :
    (logoPart cs ++ typed).lookup "logo" = (findLogo cs).map AssetVal.single := by
  cases hf : findLogo cs with
  | none => simp [logoPart, hf, hnone]
  | some nm => simp [logoPart, hf, List.lookup]

/-- On `{n}.ext` names, the source's numeric key is the value of `n`. -/
theorem sortKeyNum_of_numeral {x : String} (h : numeralNamed x = true) :
    sortKeyNum x = numeralValue x := by
  unfold numeralNamed at h
  rw [Bool.and_eq_true, Bool.not_eq_true'] at h
  obtain ⟨hempty, hall⟩ := h
  rw [List.all_eq_true] at hall
  have hany : (beforeFirstDot x).any Char.isDigit = true := by
    cases hl : beforeFirstDot x with
    | nil => rw [hl] at hempty; simp at hempty
    | cons c cs =>
      have hc : Char.isDigit c = true := hall c (by rw [hl]; exact List.mem_cons_self _ _)
      simp [hl, List.any_cons, hc]
  unfold sortKeyNum numeralValue
  rw [if_pos hany]
  congr 1
  exact List.filter_eq_self.mpr hall

/-- The category loop emits exactly one binding per requested category, in
order. -/
theorem genCats_keys :
    ∀ (root : List Entry) (cats : List String) (m : Manifest),
      genCats root cats = .ok m → m.map Prod.fst = cats := by
  intro root cats
  induction cats with
  | nil =>
    intro m h
    simp only [genCats] at h
    cases h
    rfl
  | cons cat rest ih =>
    intro m h
    simp only [genCats] at h
    split at h
    · split at h
      · simp at h
      · rename_i tail htail
        cases h
        simp [ih _ htail]
    · simp at h
    · split at h
      · simp at h
      · split at h
        · simp at h
        · rename_i tail htail
          cases h
          simp [ih _ htail]

/-- A category whose path does not exist is bound to the empty mapping. -/
theorem genCats_missing :
    ∀ (root : List Entry) (cats : List String) (m : Manifest) (cat : String),
      genCats root cats = .ok m → cat ∈ cats → findEntry cat root = none →
        m.lookup cat = some ([] : CategoryData) := by
  intro root cats
  induction cats with
  | nil => intro m cat _ hc; simp at hc
  | cons c rest ih =>
    intro m cat h hc hfind
    by_cases hcc : c = cat
    · subst hcc
      simp only [genCats, hfind] at h
      split at h
      · simp at h
      · rename_i tail htail
        cases h
        simp [List.lookup]
    · have hc' : cat ∈ rest := by
        rcases List.mem_cons.mp hc with h' | h'
        · exact absurd h'.symm hcc
        · exact h'
      have hccat : (cat == c) = false := beq_eq_false_iff_ne.mpr (fun he => hcc he.symm)
      simp only [genCats] at h
      split at h
      · split at h
        · simp at h
        · rename_i tail htail
          cases h
          simp [List.lookup, hccat, ih _ _ htail hc' hfind]
      · simp at h
      · split at h
        · simp at h
        · split at h
          · simp at h
          · rename_i tail htail
            cases h
            simp [List.lookup, hccat, ih _ _ htail hc' hfind]

/-! ### Claim theorems -/

/-- C4: a slug key appears in a category's data exactly when that slug is a
non-hidden subdirectory whose computed assets are non-empty; a slug
directory with no logo and no matching files is entirely absent. -/
theorem claim_C4 :
    ∀ (cs : List Entry) (cd : CategoryData),
      categoryData cs = .ok cd → ∀ (slug : String) (sa : SlugAssets),
        ((slug, sa) ∈ cd ↔
          ∃ ch, Entry.dir slug ch ∈ cs ∧ startsWithDot slug = false ∧
            scan_slug_directory ch = .ok sa ∧ sa ≠ []) := by
  intro cs
  induction cs with
  | nil =>
    intro cd h slug sa
    simp only [categoryData] at h
    cases h
    simp
  | cons e rest ih =>
    intro cd h slug sa
    match e with
    | .file n =>
      simp only [categoryData] at h
      rw [ih cd h slug sa]
      constructor
      · rintro ⟨ch, hm, hs, hscan, hne⟩
        exact ⟨ch, List.mem_cons_of_mem _ hm, hs, hscan, hne⟩
      · rintro ⟨ch, hm, hs, hscan, hne⟩
        rcases List.mem_cons.mp hm with heq | hm'
        · cases heq
        · exact ⟨ch, hm', hs, hscan, hne⟩
    | .dir n cs' =>
      simp only [categoryData] at h
      split at h
      · rename_i hhid
        rw [ih cd h slug sa]
        constructor
        · rintro ⟨ch, hm, hs, hscan, hne⟩
          exact ⟨ch, List.mem_cons_of_mem _ hm, hs, hscan, hne⟩
        · rintro ⟨ch, hm, hs, hscan, hne⟩
          rcases List.mem_cons.mp hm with heq | hm'
          · injection heq with h1 h2
            subst h1
            rw [hs] at hhid
            cases hhid
          · exact ⟨ch, hm', hs, hscan, hne⟩
      · rename_i hhid
        split at h
        · simp at h
        · rename_i sa' hscan'
          split at h
          · simp at h
          · rename_i tail htail
            split at h
            · rename_i hempty
              injection h with hcd
              subst hcd
              rw [ih tail htail slug sa]
              constructor
              · rintro ⟨ch, hm, hs, hscan, hne⟩
                exact ⟨ch, List.mem_cons_of_mem _ hm, hs, hscan, hne⟩
              · rintro ⟨ch, hm, hs, hscan, hne⟩
                rcases List.mem_cons.mp hm with heq | hm'
                · injection heq with h1 h2
                  subst h1
                  subst h2
                  rw [hscan'] at hscan
                  injection hscan with h3
                  subst h3
                  rw [List.isEmpty_iff] at hempty
                  exact absurd hempty hne
                · exact ⟨ch, hm', hs, hscan, hne⟩
            · rename_i hnotemp
              injection h with hcd
              subst hcd
              constructor
              · intro hmem
                rcases List.mem_cons.mp hmem with heq | hm'
                · rw [Prod.mk.injEq] at heq
                  obtain ⟨rfl, rfl⟩ := heq
                  refine ⟨cs', List.mem_cons_self _ _, ?_, hscan', ?_⟩
                  · exact Bool.not_eq_true _ ▸ Bool.of_not_eq_true hhid
                  · intro hn
                    subst hn
                    simp at hnotemp
                · obtain ⟨ch, hm2, hs, hscan, hne⟩ := (ih tail htail slug sa).mp hm'
                  exact ⟨ch, List.mem_cons_of_mem _ hm2, hs, hscan, hne⟩
              · rintro ⟨ch, hm, hs, hscan, hne⟩
                rcases List.mem_cons.mp hm with heq | hm'
                · injection heq with h1 h2
                  subst h1
                  subst h2
                  rw [hscan'] at hscan
                  injection hscan with h3
                  subst h3
                  exact List.mem_cons_self _ _
                · exact List.mem_cons_of_mem _
                    ((ih tail htail slug sa).mpr ⟨ch, hm', hs, hscan, hne⟩)

/-- C4 witness: a slug with a logo appears in the category data. -/
theorem claim_C4_witness :
    (("foo", [("logo", AssetVal.single "logo.png")]) ∈
        ([("foo", [("logo", AssetVal.single "logo.png")])] : CategoryData) ↔
      ∃ ch, Entry.dir "foo" ch ∈ [Entry.dir "foo" [Entry.file "logo.png"]] ∧
        startsWithDot "foo" = false ∧
        scan_slug_directory ch = .ok [("logo", AssetVal.single "logo.png")] ∧
        [("logo", AssetVal.single "logo.png")] ≠ []) :=
  claim_C4 [Entry.dir "foo" [Entry.file "logo.png"]]
    [("foo", [("logo", AssetVal.single "logo.png")])] rfl "foo"
    [("logo", AssetVal.single "logo.png")]

/-- C1 counterexample: the claim's key (leading digit run) orders
`12a3.png` (key 12) before `50.png` (key 50), but the code returns
`50.png` first, because its key concatenates all digits of the pre-dot
part (`12a3` ↦ 123 > 50). -/
theorem claim_C1_cex :
    get_files_in_directory
        (some (Entry.dir "screenshots" [Entry.file "12a3.png", Entry.file "50.png"]))
        [".png", ".jpg", ".jpeg", ".gif", ".webp"] = .ok ["50.png", "12a3.png"] ∧
      ¬ List.Sorted claimKeyLE ["50.png", "12a3.png"] :=
  ⟨rfl, by decide⟩

/-- C1 (amended): every successful listing is sorted by the source's key
order — all digits of the part before the first dot concatenated (0 when
there are none), ascending, full filename as tie-break — and the key of a
name with no digits before the first dot is 0; the key computation is a
total function, so it never raises. -/
theorem claim_C1 :
    ∀ (d : Option Entry) (exts : List String) (fs : List String),
      get_files_in_directory d exts = .ok fs →
      fs.Sorted keyLE ∧
        ∀ x : String, (beforeFirstDot x).any Char.isDigit = false → sortKeyNum x = 0 := by
  intro d exts fs h
  refine ⟨get_files_sorted h, ?_⟩
  intro x hx
  simp [sortKeyNum, hx]

/-- C1 witness: the sortedness conclusion at a concrete directory. -/
theorem claim_C1_witness : List.Sorted keyLE ["50.png", "12a3.png"] :=
  (claim_C1 (some (Entry.dir "screenshots" [Entry.file "12a3.png", Entry.file "50.png"]))
    [".png", ".jpg", ".jpeg", ".gif", ".webp"] ["50.png", "12a3.png"] rfl).1

/-- C2: when every returned file is named `{n}.ext` with `n` a decimal
numeral, the returned sequence is sorted ascending by the numeric value of
`n`, regardless of string-lexical order. -/
theorem claim_C2 :
    ∀ (d : Option Entry) (exts : List String) (fs : List String),
      get_files_in_directory d exts = .ok fs →
      (∀ x ∈ fs, numeralNamed x = true) →
      fs.Sorted (fun a b => numeralValue a ≤ numeralValue b) := by
  intro d exts fs h hall
  have hs := get_files_sorted h
  refine hs.imp_of_mem ?_
  intro a b ha hb hab
  rcases hab with hlt | ⟨heq, _⟩
  · rw [sortKeyNum_of_numeral (hall a ha), sortKeyNum_of_numeral (hall b hb)] at hlt
    exact le_of_lt hlt
  · rw [sortKeyNum_of_numeral (hall a ha), sortKeyNum_of_numeral (hall b hb)] at heq
    exact le_of_eq heq

/-- C2 witness: `2.png` sorts before `10.png` though `"10" < "2"`
lexically. -/
theorem claim_C2_witness :
    List.Sorted (fun a b => numeralValue a ≤ numeralValue b) ["2.png", "10.png"] :=
  claim_C2 (some (Entry.dir "s" [Entry.file "10.png", Entry.file "2.png"])) [".png"]
    ["2.png", "10.png"] rfl (by decide)

/-- C3: a produced manifest has exactly the four fixed category keys in
order, and a category whose directory is absent is bound to the empty
mapping. -/
theorem claim_C3 :
    ∀ (root : List Entry) (m : Manifest),
      generate_manifest root = .ok m →
      m.map Prod.fst = CATEGORIES ∧
        ∀ cat ∈ CATEGORIES, findEntry cat root = none →
          m.lookup cat = some ([] : CategoryData) := by
  intro root m h
  exact ⟨genCats_keys root CATEGORIES m h,
    fun cat hc hf => genCats_missing root CATEGORIES m cat h hc hf⟩

/-- C3 witness: the empty repository yields exactly the four keys. -/
theorem claim_C3_witness :
    ([("projects", []), ("education", []), ("experience", []),
        ("certifications", [])] : Manifest).map Prod.fst = CATEGORIES :=
  (claim_C3 []
    [("projects", []), ("education", []), ("experience", []), ("certifications", [])]
    rfl).1

/-- C5: the `logo` binding of a successful slug scan is exactly the first
directory entry (in enumeration order) that is a regular file with stem
`logo` (case-insensitive) and a logo extension; with no such entry the
`logo` key is absent (`lookup` misses). -/
theorem claim_C5 :
    ∀ (cs : List Entry) (assets : SlugAssets),
      scan_slug_directory cs = .ok assets →
      assets.lookup "logo" = (cs.find? isLogoFile).map (fun e => AssetVal.single e.name) := by
  intro cs assets h
  simp only [scan_slug_directory] at h
  split at h
  · simp at h
  · rename_i typed htyped
    injection h with hassets
    subst hassets
    have hkeys : "logo" ∉ typed.map Prod.fst := by
      intro hm
      have hsub := scanTypes_keys cs ASSET_TYPES typed htyped
      exact absurd (hsub.subset hm) (by decide)
    rw [lookup_logoPart_append cs typed (lookup_eq_none_of_keys _ _ hkeys),
      findLogo_eq_find?, Option.map_map]
    rfl

/-- C5 witness: with both `logo.png` and `logo.svg` present, the first in
enumeration order is selected. -/
theorem claim_C5_witness :
    ([("logo", AssetVal.single "logo.png")] : SlugAssets).lookup "logo" =
      (([Entry.file "logo.png", Entry.file "logo.svg"]).find? isLogoFile).map
        (fun e => AssetVal.single e.name) :=
  claim_C5 [Entry.file "logo.png", Entry.file "logo.svg"]
    [("logo", AssetVal.single "logo.png")] rfl

/-- C6: a missing asset-type directory lists as zero files without error,
and a missing category directory is bound to the empty mapping in any
produced manifest. -/
theorem claim_C6 :
    (∀ exts : List String, get_files_in_directory none exts = .ok []) ∧
    (∀ (root : List Entry) (m : Manifest) (cat : String),
      generate_manifest root = .ok m → cat ∈ CATEGORIES → findEntry cat root = none →
        m.lookup cat = some ([] : CategoryData)) :=
  ⟨fun _ => rfl, fun root m cat h hc hf => genCats_missing root CATEGORIES m cat h hc hf⟩

/-- C6 witness: in the empty repository the `projects` key maps to the
empty mapping. -/
theorem claim_C6_witness :
    ([("projects", []), ("education", []), ("experience", []),
        ("certifications", [])] : Manifest).lookup "projects" = some ([] : CategoryData) :=
  claim_C6.2 []
    [("projects", []), ("education", []), ("experience", []), ("certifications", [])]
    "projects" rfl (by decide) rfl

theorem sum_assetWeights_slug (sa : SlugAssets) :
    ((sa.map Prod.snd).map assetWeight).sum = (sa.map (fun kv => assetWeight kv.2)).sum := by
  rw [List.map_map]
  rfl

theorem sum_assetWeights_cat (cd : CategoryData) :
    (((cd.map Prod.snd).flatMap (fun sa => sa.map Prod.snd)).map assetWeight).sum =
      (cd.map (fun s => (s.2.map (fun kv => assetWeight kv.2)).sum)).sum := by
  induction cd with
  | nil => rfl
  | cons s cd ih =>
    simp only [List.map_cons, List.flatMap_cons, List.map_append, List.sum_append,
      List.sum_cons]
    rw [ih, sum_assetWeights_slug]

/-- C7: the summary's flattened total equals the nested
per-category/per-slug/per-key sum of sequence lengths and 1s, and on the
manifest from the claim the total asset count is 3 and the project count
is 1. -/
theorem claim_C7 :
    (∀ m : Manifest, total_assets m = spec_total_assets m) ∧
    total_assets exampleManifest = 3 ∧ project_count exampleManifest = 1 := by
  refine ⟨?_, rfl, rfl⟩
  intro m
  induction m with
  | nil => rfl
  | cons c m ih =>
    have h1 : total_assets (c :: m) =
        (((c.2.map Prod.snd).flatMap (fun sa => sa.map Prod.snd)).map assetWeight).sum +
          total_assets m := by
      simp only [total_assets, List.map_cons, List.flatMap_cons, List.flatMap_append,
        List.map_append, List.sum_append]
    have h2 : spec_total_assets (c :: m) =
        (c.2.map (fun s => (s.2.map (fun kv => assetWeight kv.2)).sum)).sum +
          spec_total_assets m := by
      simp only [spec_total_assets, List.map_cons, List.sum_cons]
    rw [h1, h2, sum_assetWeights_cat, ih]

/-- C8: the keys of a successful slug scan appear in the fixed insertion
order: `logo` first when present, then the present asset types in
`ASSET_TYPES` order. -/
theorem claim_C8 :
    ∀ (cs : List Entry) (assets : SlugAssets),
      scan_slug_directory cs = .ok assets →
      (assets.map Prod.fst).Sublist ["logo", "screenshots", "videos", "pdfs", "installers"] := by
  intro cs assets h
  simp only [scan_slug_directory] at h
  split at h
  · simp at h
  · rename_i typed htyped
    injection h with hassets
    subst hassets
    rw [List.map_append]
    have h1 : ((logoPart cs).map Prod.fst).Sublist ["logo"] := by
      cases hf : findLogo cs with
      | none => simp [logoPart, hf]
      | some nm => simp [logoPart, hf]
    have h2 := scanTypes_keys cs ASSET_TYPES typed htyped
    exact h1.append h2

/-- C8 witness: a scan with logo, screenshots and pdfs keeps the fixed key
order. -/
theorem claim_C8_witness :
    (([("logo", AssetVal.single "LOGO.svg"), ("screenshots", AssetVal.many ["1.jpg", "2.png"]),
        ("pdfs", AssetVal.many ["doc.pdf"])] : SlugAssets).map Prod.fst).Sublist
      ["logo", "screenshots", "videos", "pdfs", "installers"] :=
  claim_C8
    [Entry.file "LOGO.svg", Entry.dir "screenshots"
      [Entry.file "2.png", Entry.file "1.jpg", Entry.file "x.txt"],
     Entry.dir "pdfs" [Entry.file "doc.pdf"]]
    [("logo", AssetVal.single "LOGO.svg"), ("screenshots", AssetVal.many ["1.jpg", "2.png"]),
     ("pdfs", AssetVal.many ["doc.pdf"])] rfl

/-- C9: every non-`logo` binding of a successful slug scan is a file list
drawn entirely from inside the asset-type subdirectory of that name; a
regular file in the slug root is never classified into an asset-type
list. -/
theorem claim_C9 :
    ∀ (cs : List Entry) (assets : SlugAssets),
      scan_slug_directory cs = .ok assets →
      ∀ t v, (t, v) ∈ assets → t ≠ "logo" →
        ∃ ch fs, findEntry t cs = some (Entry.dir t ch) ∧ v = AssetVal.many fs ∧
          ∀ n ∈ fs, Entry.file n ∈ ch := by
  intro cs assets h t v hm hne
  simp only [scan_slug_directory] at h
  split at h
  · simp at h
  · rename_i typed htyped
    injection h with hassets
    subst hassets
    have hm' : (t, v) ∈ typed := by
      rcases List.mem_append.mp hm with hl | hr
      · exfalso
        cases hf : findLogo cs with
        | none => simp only [logoPart, hf] at hl; exact (List.not_mem_nil _ hl)
        | some nm =>
          simp only [logoPart, hf] at hl
          have := List.mem_singleton.mp hl
          rw [Prod.mk.injEq] at this
          exact hne this.1
      · exact hr
    obtain ⟨exts, files, hmemT, hv, hnef, hg⟩ :=
      scanTypes_mem cs ASSET_TYPES typed htyped t v hm'
    cases hfind : findEntry t cs with
    | none =>
      rw [hfind] at hg
      simp only [get_files_in_directory, Except.ok.injEq] at hg
      exact absurd hg.symm hnef
    | some e =>
      match e with
      | .file n2 =>
        rw [hfind] at hg
        simp [get_files_in_directory] at hg
      | .dir nm ch =>
        have hp := List.find?_some
          (show cs.find? (fun e => e.name == t) = some (Entry.dir nm ch) from hfind)
        have hname : nm = t := by simpa [Entry.name] using hp
        subst hname
        rw [hfind] at hg
        simp only [get_files_in_directory, Except.ok.injEq] at hg
        refine ⟨ch, files, rfl, hv, ?_⟩
        intro n hnmem
        rw [← hg] at hnmem
        have hn' := ((List.perm_insertionSort keyLE _).mem_iff).mp hnmem
        obtain ⟨e', he', hfe⟩ := List.mem_filterMap.mp hn'
        cases e' with
        | file n3 =>
          rw [show (match Entry.file n3 with
              | Entry.file n =>
                if List.contains exts (String.mk (lowerChars (pySuffix n))) then some n
                else none
              | Entry.dir _ _ => none) =
            (if List.contains exts (String.mk (lowerChars (pySuffix n3))) then some n3
              else none) from rfl] at hfe
          split at hfe
          · injection hfe with hn3
            subst hn3
            exact he'
          · cases hfe
        | dir _ _ => cases hfe

/-- C9 witness: a stray root file does not enter the screenshots list. -/
theorem claim_C9_witness :
    ∃ ch fs, findEntry "screenshots" [Entry.file "stray.png",
        Entry.dir "screenshots" [Entry.file "1.png"]] = some (Entry.dir "screenshots" ch) ∧
      AssetVal.many ["1.png"] = AssetVal.many fs ∧ ∀ n ∈ fs, Entry.file n ∈ ch :=
  claim_C9 [Entry.file "stray.png", Entry.dir "screenshots" [Entry.file "1.png"]]
    [("screenshots", AssetVal.many ["1.png"])] rfl "screenshots"
    (AssetVal.many ["1.png"]) (by decide) (by decide)

/-- C10: an asset-type path that exists as a regular file is not treated as
zero assets: the slug scan raises, and end to end the run yields an error
instead of a manifest. -/
theorem claim_C10 :
    (∀ (cs : List Entry) (t n : String),
      t ∈ ASSET_TYPES.map Prod.fst → findEntry t cs = some (Entry.file n) →
        ∃ e, scan_slug_directory cs = .error e) ∧
    generate_manifest [Entry.dir "projects" [Entry.dir "app" [Entry.file "screenshots"]]] =
      .error "NotADirectoryError" := by
  constructor
  · intro cs t n ht hf
    obtain ⟨e, he⟩ := scanTypes_err cs ASSET_TYPES t n ht hf
    exact ⟨e, by simp only [scan_slug_directory, he]⟩
  · rfl

/-- C10 witness: a slug whose `screenshots` entry is a regular file makes
the scan raise. -/
theorem claim_C10_witness :
    ∃ e, scan_slug_directory [Entry.file "screenshots"] = .error e :=
  claim_C10.1 [Entry.file "screenshots"] "screenshots" "screenshots" (by decide) rfl

end PortfolioManifest
